import Mathlib

/-!
Verification of the IR-graph / union-representation core and the renderer
scaffolding of the quicktype repository.  Shallow embedding: the PureScript
`IRGraph` module and the relevant parts of the TypeScript
`ConvenienceRenderer` / `TypeScript` renderer are translated into executable
Lean definitions, and the stated properties of the union representation,
graph canonicalization, and renderer scaffolding are proved or refuted
against them.
-/

namespace QT

/-- Names for types are given or inferred (PureScript `Named`). -/
inductive Named (a : Type) where
  | Given : a → Named a
  | Inferred : a → Named a
deriving DecidableEq, Repr

def updateGiven {a b : Type} (f : Option a → b) : Named a → Named b
  | .Given x => .Given (f (some x))
  | _ => .Given (f none)

def updateInferred {a : Type} (f : a → a) : Named a → Named a
  | .Inferred x => .Inferred (f x)
  | given => given

def namedValue {a : Type} : Named a → a
  | .Given x => x
  | .Inferred x => x

def mapToInferred {a b : Type} (f : a → b) (n : Named a) : Named b :=
  .Inferred (f (namedValue n))

/-- `unifyNamed` from the source: `Given` dominates `Inferred`. -/
def unifyNamed {a : Type} (f : a → a → a) : Named a → Named a → Named a
  | .Given ga, .Given gb => .Given (f ga gb)
  | .Given ga, _ => .Given ga
  | _, .Given gb => .Given gb
  | .Inferred ia, .Inferred ib => .Inferred (f ia ib)

/-- `IREnumData`: names plus the closed set of string values. -/
structure IREnumData where
  names : Named (Finset String)
  values : Finset String
deriving DecidableEq

/-- The record carried by an `IRUnion`.  `primitives` is a bit set
(PureScript `Int`, always a small non-negative bit pattern, modelled as `Nat`).
Parameterized over the type of nested types so it can appear nested in
`IRType` below; `IRUnionRep` abbreviates the instantiated form. -/
structure UnionShape (τ : Type) where
  names : Named (Finset String)
  primitives : Nat
  arrayType : Option τ
  classRef : Option Nat
  mapType : Option τ
  enumData : Option IREnumData
deriving DecidableEq

/-- The representation of types (PureScript `IRType`).  `IRClass` holds an
index into the graph's class arena. -/
inductive IRType where
  | IRNoInformation
  | IRAnyType
  | IRNull
  | IRInteger
  | IRDouble
  | IRBool
  | IRString
  | IRArray (a : IRType)
  | IRClass (i : Nat)
  | IRMap (m : IRType)
  | IREnum (ed : IREnumData)
  | IRUnion (rep : UnionShape IRType)

abbrev IRUnionRep := UnionShape IRType

mutual

/-- Structural Boolean equality on `IRType` (the `Eq IRType` instance of the
source, which is derived there). -/
def beqT : IRType → IRType → Bool
  | .IRNoInformation, .IRNoInformation => true
  | .IRAnyType, .IRAnyType => true
  | .IRNull, .IRNull => true
  | .IRInteger, .IRInteger => true
  | .IRDouble, .IRDouble => true
  | .IRBool, .IRBool => true
  | .IRString, .IRString => true
  | .IRArray x, .IRArray y => beqT x y
  | .IRClass i, .IRClass j => i == j
  | .IRMap x, .IRMap y => beqT x y
  | .IREnum e, .IREnum f => e == f
  | .IRUnion ⟨n₁, p₁, a₁, c₁, m₁, e₁⟩, .IRUnion ⟨n₂, p₂, a₂, c₂, m₂, e₂⟩ =>
      n₁ == n₂ && p₁ == p₂ && beqOptT a₁ a₂ && c₁ == c₂ && beqOptT m₁ m₂ && e₁ == e₂
  | _, _ => false

def beqOptT : Option IRType → Option IRType → Bool
  | none, none => true
  | some x, some y => beqT x y
  | _, _ => false

end

mutual

theorem beqT_iff : ∀ a b, beqT a b = true ↔ a = b
  | a, b => by
    cases a <;> cases b <;> try (simp [beqT]; done)
    next x y =>
      have h := beqT_iff x y
      simp [beqT, h]
    next x y =>
      have h := beqT_iff x y
      simp [beqT, h]
    next u v =>
      obtain ⟨n₁, p₁, a₁, c₁, m₁, e₁⟩ := u
      obtain ⟨n₂, p₂, a₂, c₂, m₂, e₂⟩ := v
      have ha := beqOptT_iff a₁ a₂
      have hm := beqOptT_iff m₁ m₂
      simp [beqT, ha, hm]
      tauto

theorem beqOptT_iff : ∀ a b, beqOptT a b = true ↔ a = b
  | none, none => by simp [beqOptT]
  | none, some y => by simp [beqOptT]
  | some x, none => by simp [beqOptT]
  | some x, some y => by
    simp only [beqOptT, Option.some.injEq]
    exact beqT_iff x y

end

instance : DecidableEq IRType := fun a b => decidable_of_iff (beqT a b = true) (beqT_iff a b)

def irUnion_Null : Nat := 2
def irUnion_Integer : Nat := 4
def irUnion_Double : Nat := irUnion_Integer + 8
def irUnion_Number : Nat := irUnion_Double
def irUnion_Bool : Nat := 16
def irUnion_String : Nat := 32

/-- Classes have names and properties.  `properties` models the PureScript
`Map String IRType` as its key-ascending association list (which is what
`M.toUnfoldable` yields and what all the functions below traverse). -/
structure IRClassData where
  names : Named (Finset String)
  properties : List (String × IRType)
deriving DecidableEq

/-- An arena entry. -/
inductive Entry where
  | NoType
  | Class (cd : IRClassData)
  | Redirect (i : Nat)
deriving DecidableEq

/-- The graph: a class arena (PureScript `Seq Entry`, modelled as a list)
plus the ordered top-level map (modelled as its association list). -/
structure IRGraph where
  classes : List Entry
  toplevels : List (String × IRType)
deriving DecidableEq

/-- The `Functor Named` instance of the source. -/
def Named.map {a b : Type} (f : a → b) : Named a → Named b
  | .Given x => .Given (f x)
  | .Inferred x => .Inferred (f x)

instance : Functor Named := { map := Named.map }

def makeClass (name : Named String) (properties : List (String × IRType)) : IRClassData :=
  { names := name.map (fun s => ({s} : Finset String)), properties }

def emptyGraph : IRGraph := { classes := [], toplevels := [] }

/-- `followIndex` from the source walks redirect chains via unbounded
recursion (it is `unsafePartial` there).  The embedding takes explicit fuel;
`none` models both a crash (`fromJust` on an out-of-bounds index, or a
`NoType` entry) and exhaustion of the fuel. -/
def followIndexFuel (g : IRGraph) : Nat → Nat → Option (Nat × IRClassData)
  | 0, _ => none
  | fuel + 1, index =>
    match g.classes.get? index with
    | some (Entry.Class cd) => some (index, cd)
    | some (Entry.Redirect i) => followIndexFuel g fuel i
    | _ => none

/-- PureScript `L.mapWithIndex` over a list. -/
def mapWithIndex {α β : Type} (f : Nat → α → β) (l : List α) : List β :=
  l.enum.map (fun p => f p.1 p.2)

def mapClasses {α : Type} (f : Nat → IRClassData → α) (g : IRGraph) : List α :=
  (mapWithIndex
    (fun i e => match e with
      | Entry.Class cd => [f i cd]
      | _ => []) g.classes).flatten

def mapClassesInSeq (f : Nat → IRClassData → IRClassData) (entries : List Entry) : List Entry :=
  mapWithIndex
    (fun i e => match e with
      | Entry.Class cd => Entry.Class (f i cd)
      | _ => e) entries

def classesInGraph (g : IRGraph) : List (Nat × IRClassData) :=
  mapClasses Prod.mk g

def isArray : IRType → Bool
  | .IRArray _ => true
  | _ => false

def isClass : IRType → Bool
  | .IRClass _ => true
  | _ => false

def isMap : IRType → Bool
  | .IRMap _ => true
  | _ => false

/-- `canBeNull` from the source (including the FIXME `IRNoInformation` case). -/
def canBeNull : IRType → Bool
  | .IRAnyType => true
  | .IRNull => true
  | .IRUnion rep => rep.primitives &&& irUnion_Null != 0
  | .IRNoInformation => true
  | _ => false

/-- Result record of `removeNullFromUnion`. -/
structure RemoveNullResult where
  hasNull : Bool
  nonNullUnion : IRUnionRep

def removeNullFromUnion (union : IRUnionRep) : RemoveNullResult :=
  if irUnion_Null &&& union.primitives == 0 then
    { hasNull := false, nonNullUnion := union }
  else
    { hasNull := true,
      nonNullUnion := { union with primitives := irUnion_Null ^^^ union.primitives } }

def unionHasArray (u : IRUnionRep) : Option IRType := u.arrayType.map .IRArray

def unionHasClass (u : IRUnionRep) : Option IRType := u.classRef.map .IRClass

def unionHasMap (u : IRUnionRep) : Option IRType := u.mapType.map .IRMap

def isInPrimitives (primitives bit : Nat) : Bool := bit &&& primitives != 0

def isInNumber (primitives bits : Nat) : Bool := irUnion_Number &&& primitives == bits

/-- `forUnion_` from the source: iterate the union's members monadically
(the PureScript `do` block is a discard-bind chain, and `when c a` is
`if c then a else pure unit`).  Note it never looks at `enumData`. -/
def forUnion_ {m : Type → Type} [Monad m] (u : IRUnionRep) (f : IRType → m Unit) : m Unit :=
  (if isInPrimitives u.primitives irUnion_Null then f .IRNull else pure ()) >>= fun _ =>
  (if isInNumber u.primitives irUnion_Integer then f .IRInteger else pure ()) >>= fun _ =>
  (if isInNumber u.primitives irUnion_Double then f .IRDouble else pure ()) >>= fun _ =>
  (if isInPrimitives u.primitives irUnion_Bool then f .IRBool else pure ()) >>= fun _ =>
  (if isInPrimitives u.primitives irUnion_String then f .IRString else pure ()) >>= fun _ =>
  (match u.arrayType with
   | some a => f (.IRArray a)
   | none => pure ()) >>= fun _ =>
  (match u.classRef with
   | some i => f (.IRClass i)
   | none => pure ()) >>= fun _ =>
  (match u.mapType with
   | some mt => f (.IRMap mt)
   | none => pure ())

def mapUnionPrimitive {m : Type → Type} [Monad m] {α : Type} (f : IRType → m α)
    (primitives : Nat) (predicate : Nat → Nat → Bool) (bit : Nat) (t : IRType)
    (l : List α) : m (List α) :=
  if predicate primitives bit then do
    let result ← f t
    pure (result :: l)
  else
    pure l

def mapUnionGeneral {m : Type → Type} [Monad m] {α χ : Type} (f : IRType → m α) :
    Option χ → (χ → IRType) → List α → m (List α)
  | none, _, l => pure l
  | some x, convert, l => do
    let result ← f (convert x)
    pure (result :: l)

/-- `mapUnionM` from the source: builds the member list by consing, so the
resulting list ends up in the canonical order.  Never looks at `enumData`. -/
def mapUnionM {m : Type → Type} [Monad m] {α : Type} (f : IRType → m α)
    (u : IRUnionRep) : m (List α) :=
  (pure [] : m (List α))
    >>= mapUnionGeneral f u.mapType .IRMap
    >>= mapUnionGeneral f u.classRef .IRClass
    >>= mapUnionGeneral f u.arrayType .IRArray
    >>= mapUnionPrimitive f u.primitives isInPrimitives irUnion_String .IRString
    >>= mapUnionPrimitive f u.primitives isInPrimitives irUnion_Bool .IRBool
    >>= mapUnionPrimitive f u.primitives isInNumber irUnion_Double .IRDouble
    >>= mapUnionPrimitive f u.primitives isInNumber irUnion_Integer .IRInteger
    >>= mapUnionPrimitive f u.primitives isInPrimitives irUnion_Null .IRNull

def mapUnion {α : Type} (f : IRType → α) (u : IRUnionRep) : List α :=
  Id.run (mapUnionM (fun t => pure (f t)) u)

def unionToList (u : IRUnionRep) : List IRType := mapUnion id u

def isUnionMember (t : IRType) (u : IRUnionRep) : Bool :=
  match t with
  | .IRNull => isInPrimitives u.primitives irUnion_Null
  | .IRInteger => isInNumber u.primitives irUnion_Integer
  | .IRDouble => isInNumber u.primitives irUnion_Double
  | .IRBool => isInPrimitives u.primitives irUnion_Bool
  | .IRString => isInPrimitives u.primitives irUnion_String
  | .IRArray a => match u.arrayType with
    | some x => a == x
    | none => false
  | .IRClass i => match u.classRef with
    | some x => i == x
    | none => false
  | .IRMap mt => match u.mapType with
    | some x => mt == x
    | none => false
  | .IREnum ed => match u.enumData with
    | some x => ed == x
    | none => false
  | .IRUnion _ => false
  | .IRAnyType => false
  | .IRNoInformation => false

def nullableFromUnion (union : IRUnionRep) : Option IRType :=
  let r := removeNullFromUnion union
  if r.hasNull then
    match unionToList r.nonNullUnion with
    | [x] => some x
    | _ => none
  else
    none

def emptyUnion : IRUnionRep :=
  { names := .Inferred ∅, primitives := 0, arrayType := none, classRef := none,
    mapType := none, enumData := none }

/-- A type is an enum node. -/
def isEnumType : IRType → Bool
  | .IREnum _ => true
  | _ => false

/-! ### Bitset toolkit -/

theorem land_pow_ne_zero (k p : Nat) : (2 ^ k) &&& p ≠ 0 ↔ p.testBit k = true := by
  rw [Nat.two_pow_and]
  cases h : p.testBit k <;> simp [h, pow_ne_zero]

theorem land_xor_two (m p : Nat) (hm : m.testBit 1 = false) :
    m &&& (2 ^^^ p) = m &&& p := by
  apply Nat.eq_of_testBit_eq
  intro i
  rw [Nat.testBit_land, Nat.testBit_land, Nat.testBit_xor,
    show (2 : Nat) = 2 ^ 1 from rfl, Nat.testBit_two_pow]
  rcases eq_or_ne i 1 with h | h
  · subst h; rw [hm]; simp
  · simp [Ne.symm h]

theorem land_two_xor_two (p : Nat) (hp : p.testBit 1 = true) :
    2 &&& (2 ^^^ p) = 0 := by
  apply Nat.eq_of_testBit_eq
  intro i
  rw [Nat.testBit_land, Nat.testBit_xor, Nat.zero_testBit,
    show (2 : Nat) = 2 ^ 1 from rfl, Nat.testBit_two_pow]
  rcases eq_or_ne i 1 with h | h
  · subst h; simp [hp]
  · simp [Ne.symm h]

theorem testBit_twelve (i : Nat) : Nat.testBit 12 i = (decide (i = 2) || decide (i = 3)) := by
  match i with
  | 0 => rfl
  | 1 => rfl
  | 2 => rfl
  | 3 => rfl
  | n + 4 =>
    rw [Nat.testBit_lt_two_pow]
    · simp
    · calc (12 : Nat) < 2 ^ 4 := by norm_num
        _ ≤ 2 ^ (n + 4) := Nat.pow_le_pow_right (by norm_num) (by omega)

theorem land_twelve_eq_twelve (p : Nat) (h2 : p.testBit 2 = true) (h3 : p.testBit 3 = true) :
    12 &&& p = 12 := by
  apply Nat.eq_of_testBit_eq
  intro i
  rw [Nat.testBit_land, testBit_twelve]
  rcases eq_or_ne i 2 with h | h
  · subst h; simp [h2]
  · rcases eq_or_ne i 3 with h' | h'
    · subst h'; simp [h3]
    · simp [h, h']

/-! ### The canonical member list of a union -/

/-- The canonical kind order of a union: the five primitives, then the
array, class and map slots.  Note that the enum slot is absent. -/
def canonicalList (u : IRUnionRep) : List IRType :=
  [.IRNull, .IRInteger, .IRDouble, .IRBool, .IRString] ++
    (u.arrayType.map .IRArray).toList ++
    (u.classRef.map .IRClass).toList ++
    (u.mapType.map .IRMap).toList

theorem unionToList_eq (u : IRUnionRep) :
    unionToList u =
      (if isInPrimitives u.primitives irUnion_Null then [IRType.IRNull] else []) ++
      (if isInNumber u.primitives irUnion_Integer then [IRType.IRInteger] else []) ++
      (if isInNumber u.primitives irUnion_Double then [IRType.IRDouble] else []) ++
      (if isInPrimitives u.primitives irUnion_Bool then [IRType.IRBool] else []) ++
      (if isInPrimitives u.primitives irUnion_String then [IRType.IRString] else []) ++
      (u.arrayType.map .IRArray).toList ++
      (u.classRef.map .IRClass).toList ++
      (u.mapType.map .IRMap).toList := by
  obtain ⟨nm, p, aT, cR, mT, eD⟩ := u
  by_cases h1 : isInPrimitives p irUnion_Null = true <;>
    by_cases h2 : isInNumber p irUnion_Integer = true <;>
    by_cases h3 : isInNumber p irUnion_Double = true <;>
    by_cases h4 : isInPrimitives p irUnion_Bool = true <;>
    by_cases h5 : isInPrimitives p irUnion_String = true <;>
    cases aT <;> cases cR <;> cases mT <;>
    simp [unionToList, mapUnion, mapUnionM, mapUnionPrimitive, mapUnionGeneral,
      Id.run, h1, h2, h3, h4, h5]

theorem mem_ite_singleton {c : Prop} [Decidable c] {x t : IRType} :
    t ∈ (if c then [x] else []) ↔ (c ∧ t = x) := by
  split <;> simp_all

theorem mem_opt_toList {χ : Type} {o : Option χ} {f : χ → IRType} {t : IRType} :
    t ∈ (o.map f).toList ↔ ∃ x, o = some x ∧ t = f x := by
  cases o <;> simp

/-- Membership in the union's member list is exactly `isUnionMember`, except
that enum members are never listed. -/
theorem mem_unionToList (u : IRUnionRep) (t : IRType) :
    t ∈ unionToList u ↔ (isUnionMember t u = true ∧ isEnumType t = false) := by
  rw [unionToList_eq]
  obtain ⟨nm, p, aT, cR, mT, eD⟩ := u
  cases t <;>
    cases aT <;> cases cR <;> cases mT <;> cases eD <;>
    simp [isUnionMember, isEnumType, mem_ite_singleton, mem_opt_toList, List.mem_append,
      beq_iff_eq]

theorem ite_singleton_sublist {c : Prop} [Decidable c] {x : IRType} :
    List.Sublist (if c then [x] else []) [x] := by
  split
  · exact List.Sublist.refl _
  · exact List.nil_sublist _

/-- The member list follows the canonical kind order. -/
theorem unionToList_sublist_canonical (u : IRUnionRep) :
    List.Sublist (unionToList u) (canonicalList u) := by
  rw [unionToList_eq, canonicalList]
  exact (((((((ite_singleton_sublist.append ite_singleton_sublist).append
    ite_singleton_sublist).append ite_singleton_sublist).append
    ite_singleton_sublist).append (List.Sublist.refl _)).append
    (List.Sublist.refl _)).append (List.Sublist.refl _))

theorem canonicalList_nodup (u : IRUnionRep) : (canonicalList u).Nodup := by
  obtain ⟨nm, p, aT, cR, mT, eD⟩ := u
  cases aT <;> cases cR <;> cases mT <;> simp [canonicalList]

theorem unionToList_nodup (u : IRUnionRep) : (unionToList u).Nodup :=
  List.Nodup.sublist (unionToList_sublist_canonical u) (canonicalList_nodup u)

theorem bind_pure_punit {m : Type → Type} [Monad m] [LawfulMonad m] (x : m PUnit) :
    (x >>= fun _ => (pure PUnit.unit : m PUnit)) = x := by
  have h : (fun (_ : PUnit) => (pure PUnit.unit : m PUnit)) = pure := by
    funext a; cases a; rfl
  rw [h, bind_pure]

theorem forM_ite_singleton {m : Type → Type} [Monad m] [LawfulMonad m]
    (f : IRType → m Unit) (c : Bool) (t : IRType) :
    (if c then [t] else []).forM f = (if c then f t else pure ()) := by
  cases c <;> simp [bind_pure_punit]

theorem forM_opt_toList {m : Type → Type} [Monad m] [LawfulMonad m] {χ : Type}
    (f : IRType → m Unit) (o : Option χ) (g : χ → IRType) :
    ((o.map g).toList).forM f =
      (match o with
       | some x => f (g x)
       | none => pure ()) := by
  cases o <;> simp [bind_pure_punit]

/-- `forUnion_` performs exactly one visit per member, in the order of
`unionToList`. -/
theorem forUnion_eq_forM {m : Type → Type} [Monad m] [LawfulMonad m]
    (u : IRUnionRep) (f : IRType → m Unit) :
    forUnion_ u f = (unionToList u).forM f := by
  rw [unionToList_eq, List.forM_append, List.forM_append, List.forM_append, List.forM_append,
    List.forM_append, List.forM_append, List.forM_append]
  simp only [bind_assoc, forM_ite_singleton, forM_opt_toList]
  show forUnion_ u f = _
  rw [forUnion_]
  cases u.arrayType <;> cases u.classRef <;> cases u.mapType <;> rfl

/-- A list equals `[t]` iff `t` is a member and every member equals `t`,
provided the list has no duplicates. -/
theorem nodup_eq_singleton_iff {l : List IRType} (hl : l.Nodup) (t : IRType) :
    l = [t] ↔ (t ∈ l ∧ ∀ s ∈ l, s = t) := by
  constructor
  · rintro rfl
    simp
  · rintro ⟨hmem, hall⟩
    match l, hmem with
    | t' :: l', _ =>
      have ht' : t' = t := hall t' (List.mem_cons_self _ _)
      subst ht'
      cases l' with
      | nil => rfl
      | cons s l'' =>
        have hs : s = t' := hall s (List.mem_cons_of_mem _ (List.mem_cons_self _ _))
        rw [List.nodup_cons] at hl
        exact absurd (hs ▸ List.mem_cons_self s l'') hl.1

/-! ### `removeNullFromUnion` bridges -/

theorem testBit_one_iff (p : Nat) : p.testBit 1 = true ↔ 2 &&& p ≠ 0 :=
  (land_pow_ne_zero 1 p).symm

theorem testBit_one_iff' (p : Nat) : p.testBit 1 = true ↔ p &&& 2 ≠ 0 := by
  have hcomm : p &&& 2 = 2 &&& p := Nat.land_comm p 2
  rw [testBit_one_iff, hcomm]

theorem removeNull_hasNull (u : IRUnionRep) :
    (removeNullFromUnion u).hasNull = u.primitives.testBit 1 := by
  rw [removeNullFromUnion]
  split
  · next hc =>
      have hz : 2 &&& u.primitives = 0 := by simpa [irUnion_Null] using hc
      cases htb : u.primitives.testBit 1
      · rfl
      · exact absurd hz ((testBit_one_iff u.primitives).mp htb)
  · next hc =>
      have hz : 2 &&& u.primitives ≠ 0 := by simpa [irUnion_Null] using hc
      exact ((testBit_one_iff u.primitives).mpr hz).symm

theorem removeNull_nonNull_of_noNull (u : IRUnionRep) (h : u.primitives.testBit 1 = false) :
    (removeNullFromUnion u).nonNullUnion = u := by
  have hz : irUnion_Null &&& u.primitives = 0 := by
    by_contra hne
    have ht : u.primitives.testBit 1 = true :=
      (testBit_one_iff _).mpr (by simpa [irUnion_Null] using hne)
    rw [h] at ht
    exact Bool.noConfusion ht
  simp [removeNullFromUnion, hz]

theorem removeNull_nonNull_of_null (u : IRUnionRep) (h : u.primitives.testBit 1 = true) :
    (removeNullFromUnion u).nonNullUnion =
      { u with primitives := irUnion_Null ^^^ u.primitives } := by
  have hz : irUnion_Null &&& u.primitives ≠ 0 := by
    simpa [irUnion_Null] using (testBit_one_iff _).mp h
  simp [removeNullFromUnion, hz]

/-- Clearing the null bit does not change membership of any non-null kind. -/
theorem isUnionMember_removeNull (u : IRUnionRep) (h : u.primitives.testBit 1 = true)
    (t : IRType) (ht : t ≠ .IRNull) :
    isUnionMember t (removeNullFromUnion u).nonNullUnion = isUnionMember t u := by
  rw [removeNull_nonNull_of_null u h]
  have h4 : irUnion_Bool &&& (irUnion_Null ^^^ u.primitives) =
      irUnion_Bool &&& u.primitives := land_xor_two _ _ (by decide)
  have h5 : irUnion_String &&& (irUnion_Null ^^^ u.primitives) =
      irUnion_String &&& u.primitives := land_xor_two _ _ (by decide)
  have h12 : irUnion_Number &&& (irUnion_Null ^^^ u.primitives) =
      irUnion_Number &&& u.primitives := land_xor_two _ _ (by decide)
  cases t <;>
    simp_all [isUnionMember, isInPrimitives, isInNumber, irUnion_Null]

theorem isUnionMember_null_removeNull (u : IRUnionRep) (h : u.primitives.testBit 1 = true) :
    isUnionMember .IRNull (removeNullFromUnion u).nonNullUnion = false := by
  rw [removeNull_nonNull_of_null u h]
  have h2 : irUnion_Null &&& (irUnion_Null ^^^ u.primitives) = 0 :=
    land_two_xor_two u.primitives h
  simp [isUnionMember, isInPrimitives, h2]

theorem isUnionMember_null_iff (u : IRUnionRep) :
    isUnionMember .IRNull u = u.primitives.testBit 1 := by
  show isInPrimitives u.primitives irUnion_Null = _
  rw [isInPrimitives]
  cases htb : u.primitives.testBit 1
  · have hz : 2 &&& u.primitives = 0 := by
      by_contra hne
      rw [(testBit_one_iff _).mpr hne] at htb
      exact Bool.noConfusion htb
    simp [irUnion_Null, hz]
  · have hz : 2 &&& u.primitives ≠ 0 := (testBit_one_iff _).mp htb
    simp [irUnion_Null, hz]

/-! ### Redirect chains and `followIndex` termination -/

/-- The integrity predicate of the claim: starting from index `i`, the
redirect chain is well defined and reaches a `Class` entry after exactly `n`
redirect steps. -/
def ResolvesIn (g : IRGraph) : Nat → Nat → Prop
  | i, 0 => ∃ cd, g.classes.get? i = some (Entry.Class cd)
  | i, n + 1 => ∃ j, g.classes.get? i = some (Entry.Redirect j) ∧ ResolvesIn g j n

/-- `k`-fold iteration of the redirect successor. -/
def iterK (g : IRGraph) : Nat → Nat → Option Nat
  | 0, i => some i
  | k + 1, i =>
    match g.classes.get? i with
    | some (Entry.Redirect j) => iterK g k j
    | _ => none

theorem iterK_succ (g : IRGraph) (k i : Nat) :
    iterK g (k + 1) i =
      match g.classes.get? i with
      | some (Entry.Redirect j) => iterK g k j
      | _ => none := rfl

theorem followIndexFuel_succ (g : IRGraph) (fuel i : Nat) :
    followIndexFuel g (fuel + 1) i =
      match g.classes.get? i with
      | some (Entry.Class cd) => some (i, cd)
      | some (Entry.Redirect j) => followIndexFuel g fuel j
      | _ => none := rfl

theorem resolves_lt_length {g : IRGraph} {i n : Nat} (h : ResolvesIn g i n) :
    i < g.classes.length := by
  cases n with
  | zero =>
    obtain ⟨cd, hcd⟩ := h
    exact List.get?_eq_some.mp hcd |>.1
  | succ n =>
    obtain ⟨j, hj, _⟩ := h
    exact List.get?_eq_some.mp hj |>.1

theorem iterK_of_resolves {g : IRGraph} :
    ∀ {k i n : Nat}, ResolvesIn g i n → k ≤ n →
      ∃ j, iterK g k i = some j ∧ ResolvesIn g j (n - k)
  | 0, i, n, h, _ => ⟨i, rfl, h⟩
  | k + 1, i, n, h, hk => by
    cases n with
    | zero => omega
    | succ n =>
      obtain ⟨j₁, hj₁, hres⟩ := h
      have hk' : k ≤ n := Nat.le_of_succ_le_succ hk
      obtain ⟨j, hj, hr⟩ := iterK_of_resolves hres hk'
      refine ⟨j, ?_, ?_⟩
      · rw [iterK_succ, hj₁]
        exact hj
      · simpa [Nat.succ_sub_succ] using hr

theorem resolves_of_iterK {g : IRGraph} :
    ∀ {k i j m : Nat}, iterK g k i = some j → ResolvesIn g j m → ResolvesIn g i (k + m)
  | 0, i, j, m, hij, hm => by
    simp only [iterK, Option.some.injEq] at hij
    subst hij
    simpa using hm
  | k + 1, i, j, m, hij, hm => by
    rw [iterK_succ] at hij
    rcases he : g.classes.get? i with _ | e
    · rw [he] at hij; simp at hij
    · rcases e with _ | cd | j₁ <;> rw [he] at hij
      · simp at hij
      · simp at hij
      · have hr : ResolvesIn g j₁ (k + m) := resolves_of_iterK hij hm
        rw [Nat.add_right_comm]
        exact ⟨j₁, he, hr⟩

theorem followIndexFuel_of_resolves {g : IRGraph} :
    ∀ {n i fuel : Nat}, ResolvesIn g i n → n < fuel →
      ∃ j cd, followIndexFuel g fuel i = some (j, cd) ∧
        g.classes.get? j = some (Entry.Class cd)
  | 0, i, fuel, h, hf => by
    obtain ⟨cd, hcd⟩ := h
    cases fuel with
    | zero => omega
    | succ fuel => exact ⟨i, cd, by rw [followIndexFuel_succ, hcd], hcd⟩
  | n + 1, i, fuel, h, hf => by
    obtain ⟨j₁, hj₁, hres⟩ := h
    cases fuel with
    | zero => omega
    | succ fuel =>
      have hf' : n < fuel := Nat.lt_of_succ_lt_succ hf
      obtain ⟨j, cd, hrun, hcd⟩ := followIndexFuel_of_resolves hres hf'
      refine ⟨j, cd, ?_, hcd⟩
      rw [followIndexFuel_succ, hj₁]
      exact hrun

/-- The pigeonhole bound: the minimal resolution length is below the arena
size, because the chain of a minimal resolution never revisits an index. -/
theorem resolves_min_lt_length {g : IRGraph} {i : Nat} (h : ∃ n, ResolvesIn g i n) :
    ∃ n, ResolvesIn g i n ∧ n < g.classes.length := by
  classical
  set L := g.classes.length with hL
  obtain ⟨n₀, hn₀, hmin⟩ : ∃ n, ResolvesIn g i n ∧ ∀ m, m < n → ¬ ResolvesIn g i m :=
    ⟨Nat.find h, Nat.find_spec h, fun m hm => Nat.find_min h hm⟩
  refine ⟨n₀, hn₀, ?_⟩
  have hbound : ∀ k, k ≤ n₀ → ∃ j, iterK g k i = some j ∧ j < L ∧ ResolvesIn g j (n₀ - k) := by
    intro k hk
    obtain ⟨j, hj, hr⟩ := iterK_of_resolves hn₀ hk
    exact ⟨j, hj, resolves_lt_length hr, hr⟩
  have hFlt : ∀ k : Fin (n₀ + 1), (iterK g k.1 i).getD 0 < L := by
    intro k
    obtain ⟨j, hj, hjL, _⟩ := hbound k.1 (by omega)
    rw [hj]
    exact hjL
  have hinj : Function.Injective (fun k : Fin (n₀ + 1) => (⟨(iterK g k.1 i).getD 0, hFlt k⟩ : Fin L)) := by
    intro a b hab
    simp only [Fin.mk.injEq] at hab
    by_contra hne
    -- w.l.o.g. a < b; shortcut the chain through the repeated index.
    have key : ∀ a b : Fin (n₀ + 1), a.1 < b.1 →
        (iterK g a.1 i).getD 0 = (iterK g b.1 i).getD 0 → False := by
      intro a b hlt heq
      obtain ⟨ja, hja, _, _⟩ := hbound a.1 (by omega)
      obtain ⟨jb, hjb, _, hrb⟩ := hbound b.1 (by omega)
      rw [hja, hjb] at heq
      simp only [Option.getD_some] at heq
      subst heq
      have hshort : ResolvesIn g i (a.1 + (n₀ - b.1)) :=
        resolves_of_iterK hja hrb
      exact hmin _ (by omega) hshort
    rcases Nat.lt_or_ge a.1 b.1 with hlt | hge
    · exact key a b hlt hab
    · have : b.1 < a.1 := by
        rcases Nat.lt_or_ge b.1 a.1 with h' | h'
        · exact h'
        · exact absurd (Fin.ext (by omega)) hne
      exact key b a this hab.symm
  have hcard := Fintype.card_le_of_injective _ hinj
  simpa using hcard

/-! ### Name regathering -/

/-- Modelled from the spec: `singular` (`Data.String.Util`) is not among the
source files; the spec describes it as "a simple depluralizer: strips
trailing `s`/`es`/`ies` mapping to `y`". -/
def singular (s : String) : String :=
  let cs := s.data
  if "ies".data.isSuffixOf cs then ⟨cs.take (cs.length - 3) ++ ['y']⟩
  else if "es".data.isSuffixOf cs then ⟨cs.take (cs.length - 2)⟩
  else if "s".data.isSuffixOf cs then ⟨cs.take (cs.length - 1)⟩
  else s

/-- Extensional model of the PureScript `Data.Map Int (Set String)`: the map
is observed only through `lookup`, so it is represented by its lookup
function. -/
def MapIS : Type := Nat → Option (Finset String)

def misEmpty : MapIS := fun _ => none

def misSingleton (i : Nat) (s : Finset String) : MapIS :=
  fun j => if j = i then some s else none

/-- `M.unionWith` of the source, observed through lookups. -/
def misUnionWith (f : Finset String → Finset String → Finset String) (a b : MapIS) : MapIS :=
  fun i =>
    match a i, b i with
    | some x, some y => some (f x y)
    | some x, none => some x
    | none, some y => some y
    | none, none => none

/-- `combine` from `regatherClassNames`. -/
def combine (l : List MapIS) : MapIS :=
  l.foldr (misUnionWith (· ∪ ·)) misEmpty

/-- The source's `maybe M.empty (\i -> gatherFromType name (IRClass i))
classRef`: the call immediately takes the `IRClass` base branch (see
`gatherFromType_class`), so it is written out here. -/
def gatherClassSlot (name : String) : Option Nat → MapIS
  | some i => misSingleton i {name}
  | none => misEmpty

/-- `gatherFromType` from `regatherClassNames`.  The union arm of the source
builds `combine (fromArray : fromMap : fromClass : Nil)` with
`fromArray = maybe M.empty (gatherFromType name) arrayType` and likewise for
the map slot; the two `maybe`s are expanded into the four constructor
patterns below (structural recursion requires the nested `some` in the
pattern). -/
def gatherFromType (name : String) : IRType → MapIS
  | .IRClass i => misSingleton i {name}
  | .IRArray a => gatherFromType (singular name) a
  | .IRMap mv => gatherFromType (singular name) mv
  | .IRUnion ⟨_, _, some a, cR, some mv, _⟩ =>
      combine [gatherFromType name a, gatherFromType name mv, gatherClassSlot name cR]
  | .IRUnion ⟨_, _, some a, cR, none, _⟩ =>
      combine [gatherFromType name a, misEmpty, gatherClassSlot name cR]
  | .IRUnion ⟨_, _, none, cR, some mv, _⟩ =>
      combine [misEmpty, gatherFromType name mv, gatherClassSlot name cR]
  | .IRUnion ⟨_, _, none, cR, none, _⟩ =>
      combine [misEmpty, misEmpty, gatherClassSlot name cR]
  | _ => misEmpty

theorem gatherFromType_class (name : String) (i : Nat) :
    gatherFromType name (.IRClass i) = misSingleton i {name} := rfl

def gatherFromClassData (_ : Nat) (cd : IRClassData) : MapIS :=
  combine (cd.properties.map (fun p => gatherFromType p.1 p.2))

/-- The `newNames` map of `regatherClassNames`, hoisted to a definition. -/
def regatherNewNames (g : IRGraph) : MapIS :=
  combine (mapClasses gatherFromClassData g)

/-- `regatherClassNames` from the source. -/
def regatherClassNames (g : IRGraph) : IRGraph :=
  { classes :=
      mapClassesInSeq
        (fun i cd =>
          { names := updateInferred (fun old => (regatherNewNames g i).getD old) cd.names,
            properties := cd.properties }) g.classes,
    toplevels := g.toplevels }

/-- "The name `q` reaches class `i` when walking type `t` under property
name `name`", mirroring the traversal of `gatherFromType`: each `IRArray` or
`IRMap` constructor applies `singular` once, while the union's array, map,
and class slots pass the name through unchanged. -/
inductive GathersName : String → IRType → Nat → String → Prop where
  | ofClass (name : String) (i : Nat) : GathersName name (.IRClass i) i name
  | ofArray {name q : String} {a : IRType} {i : Nat} :
      GathersName (singular name) a i q → GathersName name (.IRArray a) i q
  | ofMap {name q : String} {mv : IRType} {i : Nat} :
      GathersName (singular name) mv i q → GathersName name (.IRMap mv) i q
  | ofUnionArray {name q : String} {rep : IRUnionRep} {a : IRType} {i : Nat} :
      rep.arrayType = some a → GathersName name a i q → GathersName name (.IRUnion rep) i q
  | ofUnionMap {name q : String} {rep : IRUnionRep} {mv : IRType} {i : Nat} :
      rep.mapType = some mv → GathersName name mv i q → GathersName name (.IRUnion rep) i q
  | ofUnionClass (name : String) {rep : IRUnionRep} {i : Nat} :
      rep.classRef = some i → GathersName name (.IRUnion rep) i name

/-- Lookup-membership in a `MapIS`. -/
def misMem (m : MapIS) (i : Nat) (q : String) : Prop :=
  ∃ s, m i = some s ∧ q ∈ s

theorem misMem_unionWith_left {a b : MapIS} {i : Nat} {q : String} (h : misMem a i q) :
    misMem (misUnionWith (· ∪ ·) a b) i q := by
  obtain ⟨s, hs, hq⟩ := h
  rw [misMem, misUnionWith]
  cases hb : b i with
  | none => exact ⟨s, by rw [hs], hq⟩
  | some y => exact ⟨s ∪ y, by rw [hs], Finset.mem_union_left _ hq⟩

theorem misMem_unionWith_right {a b : MapIS} {i : Nat} {q : String} (h : misMem b i q) :
    misMem (misUnionWith (· ∪ ·) a b) i q := by
  obtain ⟨s, hs, hq⟩ := h
  rw [misMem, misUnionWith]
  cases ha : a i with
  | none => exact ⟨s, by rw [hs], hq⟩
  | some x => exact ⟨x ∪ s, by rw [hs], Finset.mem_union_right _ hq⟩

theorem misMem_combine {l : List MapIS} {x : MapIS} (hx : x ∈ l) {i : Nat} {q : String}
    (h : misMem x i q) : misMem (combine l) i q := by
  induction l with
  | nil => cases hx
  | cons y l ih =>
    rw [combine, List.foldr_cons]
    rcases List.mem_cons.mp hx with rfl | hx'
    · exact misMem_unionWith_left h
    · exact misMem_unionWith_right (ih hx')

theorem misMem_singleton (i : Nat) (name : String) :
    misMem (misSingleton i {name}) i name :=
  ⟨{name}, by rw [misSingleton]; simp, Finset.mem_singleton_self name⟩

/-- Soundness of the traversal relation: a gathered name is present in the
lookup map computed by `gatherFromType`. -/
theorem gathersName_sound {name : String} {t : IRType} {i : Nat} {q : String}
    (h : GathersName name t i q) : misMem (gatherFromType name t) i q := by
  induction h with
  | ofClass name i => exact misMem_singleton i name
  | ofArray _ ih => exact ih
  | ofMap _ ih => exact ih
  | ofUnionArray harr hg ih =>
    rename_i name q rep a i
    obtain ⟨nm, p, aT, cR, mT, eD⟩ := rep
    have harr' : aT = some a := harr
    subst harr'
    cases mT <;> exact misMem_combine (List.mem_cons_self _ _) ih
  | ofUnionMap hmap hg ih =>
    rename_i name q rep mv i
    obtain ⟨nm, p, aT, cR, mT, eD⟩ := rep
    have hmap' : mT = some mv := hmap
    subst hmap'
    cases aT <;>
      exact misMem_combine (List.mem_cons_of_mem _ (List.mem_cons_self _ _)) ih
  | ofUnionClass name hcls =>
    rename_i rep i
    obtain ⟨nm, p, aT, cR, mT, eD⟩ := rep
    have hcls' : cR = some i := hcls
    subst hcls'
    cases aT <;> cases mT <;>
      exact misMem_combine
        (List.mem_cons_of_mem _ (List.mem_cons_of_mem _ (List.mem_cons_self _ _)))
        (misMem_singleton i name)

theorem mem_mapClasses {α : Type} {g : IRGraph} {ic : Nat} {cdc : IRClassData}
    (f : Nat → IRClassData → α) (hic : g.classes.get? ic = some (.Class cdc)) :
    f ic cdc ∈ mapClasses f g := by
  rw [mapClasses, mapWithIndex]
  refine List.mem_flatten.mpr ⟨[f ic cdc], ?_, List.mem_singleton_self _⟩
  refine List.mem_map.mpr ⟨(ic, Entry.Class cdc), ?_, rfl⟩
  exact (List.mk_mem_enum_iff_get?).mpr hic

theorem mapClassesInSeq_get? (f : Nat → IRClassData → IRClassData) (l : List Entry) (i : Nat) :
    (mapClassesInSeq f l).get? i =
      (l.get? i).map
        (fun e => match e with
          | Entry.Class cd => Entry.Class (f i cd)
          | _ => e) := by
  rw [mapClassesInSeq, mapWithIndex, List.get?_map, List.enum_get?]
  cases l.get? i <;> rfl

theorem mapClassesInSeq_length (f : Nat → IRClassData → IRClassData) (l : List Entry) :
    (mapClassesInSeq f l).length = l.length := by
  rw [mapClassesInSeq, mapWithIndex, List.length_map, List.enum_length]

/-! ### The renderer scaffolding and the TypeScript renderer -/

/-- `ConvenienceRenderer.nameForNamedType`: the immutable
`_namesForNamedTypes` map is modelled extensionally by its lookup function,
and the TypeScript `throw` by `Except.error`.  The method only reads the
map, so the embedding takes it as a plain input and returns no updated
state. -/
def nameForNamedType {τ ν : Type} (namesForNamedTypes : τ → Option ν) (t : τ) :
    Except String ν :=
  match namesForNamedTypes t with
  | none => .error "Named type does not exist."
  | some n => .ok n

/-- The renderer-side type model (`Type.ts` is not among the source files;
the constructors are those dispatched by `matchType`, which the TypeScript
renderer matches exhaustively). -/
inductive TSType where
  | anyType
  | nullType
  | boolType
  | integerType
  | doubleType
  | stringType
  | arrayType (items : TSType)
  | classType (id : Nat)
  | mapType (values : TSType)
  | enumType (id : Nat)
  | unionType (children : List TSType)

mutual

/-- Structural Boolean equality on `TSType`. -/
def beqTS : TSType → TSType → Bool
  | .anyType, .anyType => true
  | .nullType, .nullType => true
  | .boolType, .boolType => true
  | .integerType, .integerType => true
  | .doubleType, .doubleType => true
  | .stringType, .stringType => true
  | .arrayType x, .arrayType y => beqTS x y
  | .classType i, .classType j => i == j
  | .mapType x, .mapType y => beqTS x y
  | .enumType i, .enumType j => i == j
  | .unionType xs, .unionType ys => beqTSList xs ys
  | _, _ => false

def beqTSList : List TSType → List TSType → Bool
  | [], [] => true
  | x :: xs, y :: ys => beqTS x y && beqTSList xs ys
  | _, _ => false

end

mutual

theorem beqTS_iff : ∀ a b, beqTS a b = true ↔ a = b
  | a, b => by
    cases a <;> cases b <;> try (simp [beqTS]; done)
    next x y =>
      have h := beqTS_iff x y
      simp [beqTS, h]
    next x y =>
      have h := beqTS_iff x y
      simp [beqTS, h]
    next xs ys =>
      have h := beqTSList_iff xs ys
      simp [beqTS, h]

theorem beqTSList_iff : ∀ xs ys, beqTSList xs ys = true ↔ xs = ys
  | [], [] => by simp [beqTSList]
  | [], _ :: _ => by simp [beqTSList]
  | _ :: _, [] => by simp [beqTSList]
  | x :: xs, y :: ys => by
    have h1 := beqTS_iff x y
    have h2 := beqTSList_iff xs ys
    simp [beqTSList, h1, h2]

end

instance : DecidableEq TSType := fun a b => decidable_of_iff (beqTS a b = true) (beqTS_iff a b)

/-- `Sourcelike`: nested fragments of emitted source (strings, names, and
arrays of fragments). -/
inductive Sourcelike where
  | str (s : String)
  | nm (n : Nat)
  | arr (xs : List Sourcelike)

/-- Modelled from the spec: `nullableFromUnion` of `Type.ts` is not among
the source files; the spec says it "returns the sole non-null kind if the
union is nullable with exactly one other inhabitant". -/
def tsNullableFromUnion (children : List TSType) : Option TSType :=
  if children.contains .nullType then
    match children.filter (fun t => t ≠ .nullType) with
    | [t] => some t
    | _ => none
  else
    none

/-- `intercalate` over source fragments. -/
def intercalateSrc (sep : Sourcelike) : List Sourcelike → List Sourcelike
  | [] => []
  | [x] => [x]
  | x :: xs => x :: sep :: intercalateSrc sep xs

def tsIsUnion : TSType → Bool
  | .unionType _ => true
  | _ => false

def tsIsArray : TSType → Bool
  | .arrayType _ => true
  | _ => false

def tsChildren : TSType → List TSType
  | .unionType children => children
  | _ => []

theorem mem_of_tsNullable {children : List TSType} {t : TSType}
    (h : tsNullableFromUnion children = some t) : t ∈ children := by
  rw [tsNullableFromUnion] at h
  split at h
  · split at h
    · rename_i t' heq
      injection h with h'
      subst h'
      have h1 : t' ∈ [t'] := List.mem_singleton_self t'
      rw [← heq] at h1
      exact List.mem_of_mem_filter h1
    · cases h
  · cases h

theorem tsChildren_sizeOf_le (t : TSType) : sizeOf (tsChildren t) ≤ sizeOf t := by
  cases t <;> simp [tsChildren]

mutual

/-- `TypeScriptRenderer.sourceFor`.  `inlineUnions` is the renderer field of
the same name; `names` models `_namesForNamedTypes` (keyed by the type).
The `throw` of the enum branch is `Except.error`. -/
def sourceFor (inlineUnions : Bool) (names : TSType → Option Nat) :
    TSType → Except String Sourcelike
  | .anyType => .ok (.str "any")
  | .nullType => .ok (.str "null")
  | .boolType => .ok (.str "boolean")
  | .integerType => .ok (.str "number")
  | .doubleType => .ok (.str "number")
  | .stringType => .ok (.str "string")
  | .arrayType items => do
    let itemType ← sourceFor inlineUnions names items
    if inlineUnions && tsIsUnion items then
      match _hnul : tsNullableFromUnion (tsChildren items) with
      | some nullable => do
        let s ← sourceFor inlineUnions names nullable
        .ok (.arr [s, .str "[]"])
      | none => .ok (.arr [.str "Array<", itemType, .str ">"])
    else if tsIsArray items then
      .ok (.arr [.str "Array<", itemType, .str ">"])
    else
      .ok (.arr [itemType, .str "[]"])
  | .classType k => do
    let n ← nameForNamedType names (.classType k)
    .ok (.nm n)
  | .mapType values => do
    let v ← sourceFor inlineUnions names values
    .ok (.arr [.str "\x7b [key: string]: ", v, .str " \x7d"])
  | .enumType _ => .error "FIXME: support enums"
  | .unionType children =>
    if inlineUnions || (tsNullableFromUnion children).isSome then do
      let cs ← sourceForList inlineUnions names children
      .ok (.arr (intercalateSrc (.str " | ") cs))
    else do
      let n ← nameForNamedType names (.unionType children)
      .ok (.nm n)
  termination_by t => sizeOf t
  decreasing_by
    all_goals simp_wf
    all_goals
      (have h1 : sizeOf nullable < sizeOf (tsChildren items) :=
        List.sizeOf_lt_of_mem (mem_of_tsNullable _hnul)
       have h2 : sizeOf (tsChildren items) ≤ sizeOf items := tsChildren_sizeOf_le items
       omega)

def sourceForList (inlineUnions : Bool) (names : TSType → Option Nat) :
    List TSType → Except String (List Sourcelike)
  | [] => .ok []
  | t :: ts => do
    let s ← sourceFor inlineUnions names t
    let ss ← sourceForList inlineUnions names ts
    .ok (s :: ss)
  termination_by l => sizeOf l
  decreasing_by
    all_goals simp_wf
    all_goals omega

end

/-- The enum branch of `sourceFor` throws unconditionally. -/
theorem sourceFor_enum (inlineUnions : Bool) (names : TSType → Option Nat) (k : Nat) :
    sourceFor inlineUnions names (.enumType k) = .error "FIXME: support enums" := by
  rw [sourceFor]

mutual

/-- `TypeScriptRenderer.typeMapTypeFor`. -/
def typeMapTypeFor (names : TSType → Option Nat) : TSType → Except String Sourcelike
  | .anyType => .ok (.str "\"undefined\"")
  | .nullType => .ok (.str "\"undefined\"")
  | .boolType => .ok (.str "\"boolean\"")
  | .integerType => .ok (.str "\"number\"")
  | .doubleType => .ok (.str "\"number\"")
  | .stringType => .ok (.str "\"string\"")
  | .arrayType items => do
    let t ← typeMapTypeFor names items
    .ok (.arr [.str "array(", t, .str ")"])
  | .classType k => do
    let n ← nameForNamedType names (.classType k)
    .ok (.arr [.str "object(\"", .nm n, .str "\")"])
  | .mapType values => do
    let t ← typeMapTypeFor names values
    .ok (.arr [.str "map(", t, .str ")"])
  | .enumType _ => .error "FIXME: support enums"
  | .unionType children => do
    let cs ← typeMapTypeForList names children
    .ok (.arr (.str "union(" :: intercalateSrc (.str ", ") cs ++ [.str ")"]))

def typeMapTypeForList (names : TSType → Option Nat) :
    List TSType → Except String (List Sourcelike)
  | [] => .ok []
  | t :: ts => do
    let s ← typeMapTypeFor names t
    let ss ← typeMapTypeForList names ts
    .ok (s :: ss)

end

/-- `TypeScriptRenderer.caseNamer`: the getter unconditionally throws. -/
def caseNamer : Except String (String → String) := .error "FIXME: support enums"

/-! ### Concrete instances used by counterexamples and witnesses -/

def edX : IREnumData := { names := .Inferred ∅, values := {"x"} }

/-- A union whose only occupied slot is `enumData`. -/
def uEnumOnly : IRUnionRep :=
  { names := .Inferred ∅, primitives := 0, arrayType := none, classRef := none,
    mapType := none, enumData := some edX }

/-- A union of `Null` and an enum. -/
def uNullEnum : IRUnionRep :=
  { names := .Inferred ∅, primitives := 2, arrayType := none, classRef := none,
    mapType := none, enumData := some edX }

/-- A union of `Null` and `String` (bits 2 and 32). -/
def uNullString : IRUnionRep :=
  { names := .Inferred ∅, primitives := 34, arrayType := none, classRef := none,
    mapType := none, enumData := none }

/-- A union with both the `Integer` and the `Double` bit set (bits 4 and 8). -/
def uNum : IRUnionRep :=
  { names := .Inferred ∅, primitives := 12, arrayType := none, classRef := none,
    mapType := none, enumData := none }

def cdEmpty : IRClassData := { names := .Inferred ∅, properties := [] }

/-- A two-entry arena whose entry 0 redirects to the live class at entry 1. -/
def gRedirect : IRGraph := { classes := [.Redirect 1, .Class cdEmpty], toplevels := [] }

/-- A union whose class slot holds class 1. -/
def uClassSlot : IRUnionRep :=
  { names := .Inferred ∅, primitives := 0, arrayType := none, classRef := some 1,
    mapType := none, enumData := none }

def cdBabies : IRClassData :=
  { names := .Inferred ∅, properties := [("babies", .IRUnion uClassSlot)] }

/-- Class 0 reaches class 1 through the union's class slot under the
property name `babies`. -/
def gBabies : IRGraph := { classes := [.Class cdBabies, .Class cdEmpty], toplevels := [] }

def cdXs : IRClassData :=
  { names := .Inferred ∅, properties := [("xs", .IRArray (.IRClass 1))] }

/-- Class 0 reaches class 1 through an array element under `xs`. -/
def gXs : IRGraph := { classes := [.Class cdXs, .Class cdEmpty], toplevels := [] }

/-! ### Claims -/

/-- C1 (counterexample to the claim as stated): a union whose `enumData`
slot is occupied has `IREnum` as a member according to `isUnionMember`, yet
iteration never visits it — `unionToList` (the member list produced by
`mapUnionM`, which is also the visit sequence of `forUnion_`) is empty. -/
theorem unionEnum_not_visited :
    isUnionMember (.IREnum edX) uEnumOnly = true ∧ unionToList uEnumOnly = [] := by
  constructor
  · decide
  · rfl

/-- C1 (amended): for every `IRUnionRep u`, iterating with `forUnion_` and
listing with `unionToList` / `mapUnionM` visits each non-enum kind present
in `u` exactly once, in the canonical order `Null, Integer, Double, Bool,
String, Array, Class, Map`, with no duplicates; the `enumData` slot is never
visited.  Concretely: the member list is duplicate-free, is a sublist of the
canonical kind sequence, contains exactly the non-enum `isUnionMember`
members, and `forUnion_` performs exactly that sequence of visits. -/
theorem forUnion_canonical_order (u : IRUnionRep) :
    (unionToList u).Nodup ∧
    List.Sublist (unionToList u) (canonicalList u) ∧
    (∀ t, t ∈ unionToList u ↔ (isUnionMember t u = true ∧ isEnumType t = false)) ∧
    (∀ (m : Type → Type) [Monad m] [LawfulMonad m] (f : IRType → m Unit),
      forUnion_ u f = (unionToList u).forM f) :=
  ⟨unionToList_nodup u, unionToList_sublist_canonical u, mem_unionToList u,
    fun _ _ _ f => forUnion_eq_forM u f⟩

theorem forUnion_canonical_order_witness :
    (IRType.IRNull ∈ unionToList uNullString ↔
      (isUnionMember .IRNull uNullString = true ∧ isEnumType .IRNull = false)) ∧
    forUnion_ uNullString (fun _ => (pure () : Id Unit)) =
      (unionToList uNullString).forM (fun _ => pure ()) :=
  ⟨(forUnion_canonical_order uNullString).2.2.1 .IRNull,
   (forUnion_canonical_order uNullString).2.2.2 Id (fun _ => pure ())⟩

theorem nullableFromUnion_eq (u : IRUnionRep) :
    nullableFromUnion u =
      if (removeNullFromUnion u).hasNull then
        match unionToList (removeNullFromUnion u).nonNullUnion with
        | [x] => some x
        | _ => none
      else none := rfl

theorem match_singleton_eq (L : List IRType) (t : IRType) :
    (match L with
     | [x] => some x
     | _ => none) = some t ↔ L = [t] := by
  rcases L with _ | ⟨x, _ | ⟨y, tl⟩⟩ <;> simp

/-- C2 (counterexample to the claim as stated): the union `{Null, Enum}`
contains `Null` and exactly one other kind (the enum), yet
`nullableFromUnion` returns `none` rather than the enum, because the member
list ignores the enum slot. -/
theorem nullableFromUnion_enum_counterexample :
    nullableFromUnion uNullEnum = none ∧
    isUnionMember .IRNull uNullEnum = true ∧
    isUnionMember (.IREnum edX) uNullEnum = true ∧
    (∀ s, isUnionMember s uNullEnum = true → s = .IRNull ∨ s = .IREnum edX) := by
  refine ⟨rfl, rfl, by decide, ?_⟩
  intro s hs
  cases s
  case IRNull => exact Or.inl rfl
  case IREnum ed => exact Or.inr (by rw [eq_of_beq hs])
  all_goals exact Bool.noConfusion hs

/-- C2 (amended): `nullableFromUnion u` returns `some t` iff `u` contains
`Null` and `t` is the unique other member among the primitive bits and the
array, class and map slots (the enum slot is ignored: a union of `Null` plus
only an enum yields `none`). -/
theorem nullableFromUnion_characterization (u : IRUnionRep) (t : IRType) :
    nullableFromUnion u = some t ↔
      (isUnionMember .IRNull u = true ∧ isUnionMember t u = true ∧ t ≠ .IRNull ∧
        isEnumType t = false ∧
        ∀ s, isUnionMember s u = true → isEnumType s = false → s = .IRNull ∨ s = t) := by
  rw [nullableFromUnion_eq]
  cases htb : u.primitives.testBit 1 with
  | false =>
    rw [removeNull_hasNull, htb]
    have hnull : isUnionMember .IRNull u = false := by rw [isUnionMember_null_iff, htb]
    simp [hnull]
  | true =>
    rw [removeNull_hasNull, htb]
    have hnull : isUnionMember .IRNull u = true := by rw [isUnionMember_null_iff, htb]
    simp only [if_true]
    rw [match_singleton_eq,
      nodup_eq_singleton_iff (unionToList_nodup (removeNullFromUnion u).nonNullUnion) t]
    constructor
    · rintro ⟨hmem, hall⟩
      rw [mem_unionToList] at hmem
      obtain ⟨hm, he⟩ := hmem
      have htn : t ≠ .IRNull := by
        rintro rfl
        rw [isUnionMember_null_removeNull u htb] at hm
        exact Bool.noConfusion hm
      refine ⟨hnull, ?_, htn, he, ?_⟩
      · rw [← isUnionMember_removeNull u htb t htn]
        exact hm
      · intro s hs hse
        by_cases hsn : s = .IRNull
        · exact Or.inl hsn
        · right
          apply hall
          rw [mem_unionToList]
          exact ⟨by rw [isUnionMember_removeNull u htb s hsn]; exact hs, hse⟩
    · rintro ⟨_, hm, htn, he, huniq⟩
      constructor
      · rw [mem_unionToList]
        exact ⟨by rw [isUnionMember_removeNull u htb t htn]; exact hm, he⟩
      · intro s hsmem
        rw [mem_unionToList] at hsmem
        obtain ⟨hs, hse⟩ := hsmem
        have hsn : s ≠ .IRNull := by
          rintro rfl
          rw [isUnionMember_null_removeNull u htb] at hs
          exact Bool.noConfusion hs
        rw [isUnionMember_removeNull u htb s hsn] at hs
        rcases huniq s hs hse with h | h
        · exact absurd h hsn
        · exact h

theorem nullableFromUnion_characterization_witness :
    nullableFromUnion uNullString = some .IRString ↔
      (isUnionMember .IRNull uNullString = true ∧
        isUnionMember .IRString uNullString = true ∧ IRType.IRString ≠ .IRNull ∧
        isEnumType .IRString = false ∧
        ∀ s, isUnionMember s uNullString = true → isEnumType s = false →
          s = .IRNull ∨ s = .IRString) :=
  nullableFromUnion_characterization uNullString .IRString

/-- C3: in a union whose primitives bitset has both the `Integer` bit (4)
and the `Double` bit (8) set, emission yields `IRDouble` and never
`IRInteger`: `isUnionMember` reports `IRDouble` but not `IRInteger`, and the
member list visited by `forUnion_` / `mapUnionM` contains `IRDouble` but not
`IRInteger`, exactly as for a union carrying only `Double`; the bits
themselves are untouched since iteration does not modify the union. -/
theorem integer_double_renders_double (u : IRUnionRep)
    (h2 : u.primitives.testBit 2 = true) (h3 : u.primitives.testBit 3 = true) :
    isUnionMember .IRInteger u = false ∧ isUnionMember .IRDouble u = true ∧
    IRType.IRDouble ∈ unionToList u ∧ IRType.IRInteger ∉ unionToList u := by
  have hnum : irUnion_Number &&& u.primitives = 12 :=
    land_twelve_eq_twelve u.primitives h2 h3
  have hint : isUnionMember .IRInteger u = false := by
    show (irUnion_Number &&& u.primitives == irUnion_Integer) = false
    rw [hnum]
    rfl
  have hdbl : isUnionMember .IRDouble u = true := by
    show (irUnion_Number &&& u.primitives == irUnion_Double) = true
    rw [hnum]
    rfl
  refine ⟨hint, hdbl, ?_, ?_⟩
  · rw [mem_unionToList]
    exact ⟨hdbl, rfl⟩
  · rw [mem_unionToList]
    rintro ⟨hm, _⟩
    rw [hint] at hm
    exact Bool.noConfusion hm

theorem integer_double_renders_double_witness :
    isUnionMember .IRInteger uNum = false ∧ isUnionMember .IRDouble uNum = true ∧
    IRType.IRDouble ∈ unionToList uNum ∧ IRType.IRInteger ∉ unionToList uNum :=
  integer_double_renders_double uNum (by decide) (by decide)

/-- C4: for every graph whose redirect chain from index `i` is finite and
ends at a `Class` entry (the arena-integrity premise, expressed as
`∃ n, ResolvesIn g i n`), `followIndex` terminates within `classes.length`
steps — running the fuelled embedding with fuel `classes.length` returns
`some (j, cd)` where arena entry `j` is `Class cd`. -/
theorem followIndex_terminates (g : IRGraph) (i : Nat) (h : ∃ n, ResolvesIn g i n) :
    ∃ j cd, followIndexFuel g g.classes.length i = some (j, cd) ∧
      g.classes.get? j = some (Entry.Class cd) := by
  obtain ⟨n, hn, hlt⟩ := resolves_min_lt_length h
  exact followIndexFuel_of_resolves hn hlt

theorem followIndex_terminates_witness :
    ∃ j cd, followIndexFuel gRedirect gRedirect.classes.length 0 = some (j, cd) ∧
      gRedirect.classes.get? j = some (Entry.Class cd) :=
  followIndex_terminates gRedirect 0 ⟨1, ⟨1, rfl, ⟨cdEmpty, rfl⟩⟩⟩

theorem regather_get? (g : IRGraph) (i : Nat) :
    (regatherClassNames g).classes.get? i =
      (g.classes.get? i).map
        (fun e => match e with
          | Entry.Class cd =>
              Entry.Class
                ⟨updateInferred (fun old => (regatherNewNames g i).getD old) cd.names,
                  cd.properties⟩
          | _ => e) :=
  mapClassesInSeq_get?
    (fun i cd =>
      { names := updateInferred (fun old => (regatherNewNames g i).getD old) cd.names,
        properties := cd.properties }) g.classes i

theorem regather_get?_class {g : IRGraph} {i : Nat} {cd : IRClassData}
    (hic : g.classes.get? i = some (Entry.Class cd)) :
    (regatherClassNames g).classes.get? i =
      some (Entry.Class
        ⟨updateInferred (fun old => (regatherNewNames g i).getD old) cd.names,
          cd.properties⟩) := by
  rw [regather_get?, hic]
  rfl

/-- C5 (counterexample to the claim as stated): in `gBabies`, class 1 is
reached through the class slot of a union under the property name `babies`;
the claim says names reached through slots nested inside unions get
`singular` applied, but the code adds the name unchanged: class 1 ends up
with inferred name `babies`, not `singular "babies" = "baby"`. -/
theorem regather_union_slot_counterexample :
    singular "babies" = "baby" ∧
    ∃ s, (regatherClassNames gBabies).classes.get? 1 =
        some (Entry.Class ⟨Named.Inferred s, []⟩) ∧
      "babies" ∈ s ∧ "baby" ∉ s := by
  refine ⟨by decide, {"babies"}, by decide, by decide, by decide⟩

/-- C5 (amended): `regatherClassNames` leaves the top levels, the arena
length, every non-class entry, every class's properties, and every `Given`
name set unchanged; and whenever class `i` occurs as `Class i` inside a
property slot of some live class — reached as described by `GathersName`,
which applies `singular` once per enclosing `IRArray`/`IRMap` constructor
but passes the name through unchanged into a union's array, class, and map
slots — the reached name is added to class `i`'s `Inferred` name set. -/
theorem regatherClassNames_spec (g : IRGraph) :
    (regatherClassNames g).toplevels = g.toplevels ∧
    (regatherClassNames g).classes.length = g.classes.length ∧
    (∀ i e, g.classes.get? i = some e → (∀ cd, e ≠ Entry.Class cd) →
      (regatherClassNames g).classes.get? i = some e) ∧
    (∀ i cd, g.classes.get? i = some (Entry.Class cd) →
      ∃ nm, (regatherClassNames g).classes.get? i =
          some (Entry.Class ⟨nm, cd.properties⟩) ∧
        ∀ s, cd.names = Named.Given s → nm = Named.Given s) ∧
    (∀ ic cdc p t i q cd old,
      g.classes.get? ic = some (Entry.Class cdc) → (p, t) ∈ cdc.properties →
      GathersName p t i q → g.classes.get? i = some (Entry.Class cd) →
      cd.names = Named.Inferred old →
      ∃ s, (regatherClassNames g).classes.get? i =
          some (Entry.Class ⟨Named.Inferred s, cd.properties⟩) ∧ q ∈ s) := by
  refine ⟨rfl, ?_, ?_, ?_, ?_⟩
  · exact mapClassesInSeq_length
      (fun i cd =>
        { names := updateInferred (fun old => (regatherNewNames g i).getD old) cd.names,
          properties := cd.properties }) g.classes
  · intro i e hie hne
    rw [regather_get?, hie]
    cases e with
    | NoType => rfl
    | Redirect j => rfl
    | Class cd => exact absurd rfl (hne cd)
  · intro i cd hic
    refine ⟨_, regather_get?_class hic, ?_⟩
    intro s hs
    rw [hs]
    rfl
  · intro ic cdc p t i q cd old hic hp hg hi hnames
    have hmm : misMem (regatherNewNames g) i q := by
      refine misMem_combine (mem_mapClasses gatherFromClassData hic) ?_
      refine misMem_combine ?_ (gathersName_sound hg)
      exact List.mem_map.mpr ⟨(p, t), hp, rfl⟩
    obtain ⟨s, hsi, hqs⟩ := hmm
    refine ⟨s, ?_, hqs⟩
    rw [regather_get?_class hi, hnames]
    simp only [updateInferred]
    rw [hsi]
    rfl

theorem regatherClassNames_spec_witness :
    ∃ s, (regatherClassNames gXs).classes.get? 1 =
        some (Entry.Class ⟨Named.Inferred s, []⟩) ∧ singular "xs" ∈ s :=
  (regatherClassNames_spec gXs).2.2.2.2 0 cdXs "xs" (.IRArray (.IRClass 1)) 1
    (singular "xs") cdEmpty ∅ rfl (List.mem_singleton_self _)
    (GathersName.ofArray (GathersName.ofClass (singular "xs") 1)) rfl rfl

/-- C6: `unifyNamed f` — two `Given`s combine their payloads into a `Given`,
a `Given` on either side dominates an `Inferred`, and two `Inferred`s
combine their payloads into an `Inferred`. -/
theorem unifyNamed_given_dominates {a : Type} (f : a → a → a) (x y : a) :
    unifyNamed f (.Given x) (.Given y) = .Given (f x y) ∧
    unifyNamed f (.Given x) (.Inferred y) = .Given x ∧
    unifyNamed f (.Inferred x) (.Given y) = .Given y ∧
    unifyNamed f (.Inferred x) (.Inferred y) = .Inferred (f x y) :=
  ⟨rfl, rfl, rfl, rfl⟩

/-- C7: whenever the TypeScript renderer reaches an enum — in `sourceFor`,
in `typeMapTypeFor`, or through the `caseNamer` getter — it throws the bare
string `"FIXME: support enums"`: it does not silently succeed, but neither
does it record an issue annotation nor emit a placeholder (there is no
annotation machinery in the renderer at all), contrary to the claim. -/
theorem typescript_enum_throws (inlineUnions : Bool) (names : TSType → Option Nat) (k : Nat) :
    sourceFor inlineUnions names (.enumType k) = .error "FIXME: support enums" ∧
    typeMapTypeFor names (.enumType k) = .error "FIXME: support enums" ∧
    caseNamer = .error "FIXME: support enums" :=
  ⟨sourceFor_enum inlineUnions names k, by rw [typeMapTypeFor], rfl⟩

/-- C8: `removeNullFromUnion` reports `hasNull` exactly when the `Null` bit
(bit 1) is set; the returned union has the `Null` bit cleared, every other
primitive bit unchanged, and the `names`, `arrayType`, `classRef`,
`mapType` and `enumData` components untouched; when the `Null` bit is clear
the union is returned unchanged. -/
theorem removeNullFromUnion_spec (u : IRUnionRep) :
    (removeNullFromUnion u).hasNull = u.primitives.testBit 1 ∧
    (removeNullFromUnion u).nonNullUnion.primitives.testBit 1 = false ∧
    (∀ i, i ≠ 1 →
      (removeNullFromUnion u).nonNullUnion.primitives.testBit i = u.primitives.testBit i) ∧
    ((removeNullFromUnion u).nonNullUnion.names = u.names ∧
      (removeNullFromUnion u).nonNullUnion.arrayType = u.arrayType ∧
      (removeNullFromUnion u).nonNullUnion.classRef = u.classRef ∧
      (removeNullFromUnion u).nonNullUnion.mapType = u.mapType ∧
      (removeNullFromUnion u).nonNullUnion.enumData = u.enumData) ∧
    (u.primitives.testBit 1 = false → (removeNullFromUnion u).nonNullUnion = u) := by
  refine ⟨removeNull_hasNull u, ?_, ?_, ?_, removeNull_nonNull_of_noNull u⟩
  · cases htb : u.primitives.testBit 1 with
    | false =>
      rw [removeNull_nonNull_of_noNull u htb]
      exact htb
    | true =>
      rw [removeNull_nonNull_of_null u htb]
      show ((irUnion_Null ^^^ u.primitives)).testBit 1 = false
      rw [Nat.testBit_xor, htb]
      rfl
  · intro i hi
    cases htb : u.primitives.testBit 1 with
    | false => rw [removeNull_nonNull_of_noNull u htb]
    | true =>
      rw [removeNull_nonNull_of_null u htb]
      show ((irUnion_Null ^^^ u.primitives)).testBit i = u.primitives.testBit i
      rw [Nat.testBit_xor, show (irUnion_Null : Nat) = 2 ^ 1 from rfl, Nat.testBit_two_pow]
      simp [Ne.symm hi]
  · cases htb : u.primitives.testBit 1 with
    | false =>
      rw [removeNull_nonNull_of_noNull u htb]
      exact ⟨rfl, rfl, rfl, rfl, rfl⟩
    | true =>
      rw [removeNull_nonNull_of_null u htb]
      exact ⟨rfl, rfl, rfl, rfl, rfl⟩

theorem removeNullFromUnion_spec_witness :
    (removeNullFromUnion uNullString).hasNull = Nat.testBit 34 1 ∧
    (removeNullFromUnion uNullString).nonNullUnion.primitives.testBit 5 =
      Nat.testBit 34 5 ∧
    (removeNullFromUnion uEnumOnly).nonNullUnion = uEnumOnly :=
  ⟨(removeNullFromUnion_spec uNullString).1,
   (removeNullFromUnion_spec uNullString).2.2.1 5 (by decide),
   (removeNullFromUnion_spec uEnumOnly).2.2.2.2 (by decide)⟩

/-- C9: `nameForNamedType` is a pure lookup in the renderer's name map — it
returns `ok n` exactly when the map previously assigned `n` to the type,
modifies nothing, and throws `"Named type does not exist."` exactly when no
name was ever assigned. -/
theorem nameForNamedType_lookup {τ ν : Type} (m : τ → Option ν) (t : τ) :
    (∀ n, nameForNamedType m t = .ok n ↔ m t = some n) ∧
    (nameForNamedType m t = .error "Named type does not exist." ↔ m t = none) := by
  cases h : m t <;> simp [nameForNamedType, h]

/-- C10: `canBeNull t` is `true` exactly for `IRAnyType`, `IRNull`, the
`IRNoInformation` placeholder (which the source marks FIXME but treats as
nullable rather than failing), and unions whose primitives bitset has the
`Null` bit set; it is `false` for every other type. -/
theorem canBeNull_iff (t : IRType) :
    canBeNull t = true ↔
      (t = .IRAnyType ∨ t = .IRNull ∨ t = .IRNoInformation ∨
        ∃ u, t = .IRUnion u ∧ u.primitives.testBit 1 = true) := by
  cases t <;> try (simp [canBeNull]; done)
  next rep =>
    show (rep.primitives &&& irUnion_Null != 0) = true ↔ _
    simp only [bne_iff_ne, ne_eq]
    constructor
    · intro h
      refine Or.inr (Or.inr (Or.inr ⟨rep, rfl, ?_⟩))
      rw [testBit_one_iff']
      simpa [irUnion_Null] using h
    · rintro (h | h | h | ⟨u', hu, htb⟩) <;> try (exact absurd h (by simp))
      cases hu
      rw [testBit_one_iff'] at htb
      simpa [irUnion_Null] using htb

end QT
